import Mathlib

/-!
Verification of `read_before_days.py`, a maintenance script for a Miniflux
RSS reader.  The script marks all of a user's entries as read, then walks
the now-read entries in descending publish order, collects the ids of the
entries published strictly after a cutoff date, and marks exactly those
entries unread again.

The Python source is shallowly embedded below:

* `Entry` models a service entry; its `publishedAt` field holds the parsed
  publish instant (microseconds since the epoch, as produced by
  `PyDatetime.toInstantMicros`), since Python compares timezone-aware
  `datetime` values by instant.
* `scanPageAux` is the `for` loop of `append_entries_after_date`
  (lines 119-129 of the source): it appends accepted ids, remembers the
  last accepted entry, and breaks at the first entry not strictly after
  the cutoff.
* `appendTrace` is the recursive pagination of `append_entries_after_date`
  instrumented with the list of `(after_entry_id, page)` fetches it
  performs; `append_entries_after_date` is its id-only projection.  A
  `fuel` argument bounds the recursion depth; a run that "completes
  without raising" is one where the result is `some _`.
* `pageAfter` models the remote service serving pages of at most `limit`
  entries out of a fixed list, where a cursor asks for the entries that
  follow the entry carrying that id.
* `MinifluxClient.request` and the four operation wrappers model the HTTP
  status handling of lines 54-87; `http_request` models the body-reading
  behaviour of lines 27-33, where a caught `IncompleteRead` yields the
  partial body.  JSON decoding of successful bodies is delegated to the
  Python standard library and is not modelled; the `jsonResponse` flag is
  carried through for fidelity only.
* `strptimeRun` models `datetime.strptime` restricted to the directives
  used by the two formats of `parse_time` (`%Y %m %d %H %M %S %f %z`,
  with `%z` limited to `Z` and `±HH[:]MM` offsets).
* `mainEvents` records the remote calls and `time.sleep(1)` pauses of
  `main` (lines 102-113) in order.
-/

/-- A feed entry as used by the script: opaque id, publish instant
(already parsed, in microseconds since the epoch), display title. -/
structure Entry where
  id : Nat
  publishedAt : Int
  title : String
deriving DecidableEq, Repr

/-- The strict comparison `published_at > date` of line 123. -/
def isAfter (date : Int) (e : Entry) : Bool :=
  decide (date < e.publishedAt)

/-- The `for` loop of `append_entries_after_date` (lines 119-129):
`entry_ids` is the accumulator list the Python code mutates,
`after_date_entry` the loop-carried cursor candidate.  An accepted entry
appends its id and becomes the candidate; the first rejected entry resets
the candidate to `none` and breaks. -/
def scanPageAux (date : Int) (entry_ids : List Nat) (after_date_entry : Option Entry) :
    List Entry → List Nat × Option Entry
  | [] => (entry_ids, after_date_entry)
  | e :: rest =>
    if isAfter date e then
      scanPageAux date (entry_ids ++ [e.id]) (some e) rest
    else
      (entry_ids, none)

/-- Scanning one page starting from an empty candidate, as each call of
`append_entries_after_date` does. -/
def scanPage (date : Int) (page : List Entry) : List Nat × Option Entry :=
  scanPageAux date [] none page

/-- The recursion of `append_entries_after_date` (lines 116-133),
instrumented with the list of `(after_entry_id, page)` fetches performed.
Returns `none` when the fuel runs out (a run that does not complete),
otherwise the fetch trace and the final collected id list. -/
def appendTrace (fetch : Option Nat → List Entry) (date : Int) :
    Nat → List Nat → Option Nat → Option (List (Option Nat × List Entry) × List Nat)
  | 0, _, _ => none
  | fuel + 1, entry_ids, after_entry_id =>
    let page := fetch after_entry_id
    match scanPageAux date entry_ids none page with
    | (ids2, none) => some ([(after_entry_id, page)], ids2)
    | (ids2, some e) =>
      match appendTrace fetch date fuel ids2 (some e.id) with
      | none => none
      | some (ps, ids3) => some ((after_entry_id, page) :: ps, ids3)

/-- `append_entries_after_date` proper: the collected id list of a
completed run. -/
def append_entries_after_date (fetch : Option Nat → List Entry) (date : Int)
    (fuel : Nat) (entry_ids : List Nat) (after_entry_id : Option Nat) : Option (List Nat) :=
  (appendTrace fetch date fuel entry_ids after_entry_id).map Prod.snd

/-- The remote service modelled as a fixed entry list served in order:
no cursor returns the first `limit` entries, a cursor returns the `limit`
entries that follow the entry carrying that id (nothing if the id does
not occur). -/
def pageAfter (entries : List Entry) (limit : Nat) : Option Nat → List Entry
  | none => entries.take limit
  | some cid => (((entries.dropWhile fun e => e.id != cid).drop 1).take limit)

/-- Entry status on the service. -/
inductive EntryStatus
  | read
  | unread
deriving DecidableEq, Repr

/-- The status an entry ends the run with: `main` first marks everything
read, then marks the collected ids unread (lines 104 and 113). -/
def runFinalStatus (entry_ids : List Nat) (e : Entry) : EntryStatus :=
  if e.id ∈ entry_ids then EntryStatus.unread else EntryStatus.read

/-- Observable events of a run: the four remote call kinds and the
`time.sleep(1)` pauses. -/
inductive Ev
  | getCurrentUser
  | markAllRead
  | sleep
  | getEntries (after_entry_id : Option Nat)
  | updateEntries (entry_ids : List Nat)
deriving DecidableEq, Repr

/-- The events of the pagination: each fetch is preceded by the
`time.sleep(1)` that runs before it (line 106 for the first fetch,
line 132 for each recursive one). -/
def fetchEvents (ps : List (Option Nat × List Entry)) : List Ev :=
  ps.flatMap fun p => [Ev.sleep, Ev.getEntries p.1]

/-- The ordered remote calls and pauses of `main` (lines 102-113): user
lookup, mark-all-read, the paginated fetches with their pauses, and the
final bulk unread update. -/
def mainEvents (fetch : Option Nat → List Entry) (date : Int) (fuel : Nat) :
    Option (List Ev) :=
  match appendTrace fetch date fuel [] none with
  | none => none
  | some (ps, ids) =>
    some ([Ev.getCurrentUser, Ev.markAllRead] ++ fetchEvents ps ++ [Ev.updateEntries ids])

/-- Whether an event is a remote HTTP call (everything except a pause). -/
def isCall : Ev → Bool
  | Ev.sleep => false
  | _ => true

/-- Whether an event is a page fetch. -/
def isGetEntries : Ev → Bool
  | Ev.getEntries _ => true
  | _ => false

/-- The spec's pause discipline: no two remote calls are adjacent in the
event list, i.e. some pause separates every pair of successive calls. -/
def pausedBetweenCalls (t : List Ev) : Prop :=
  List.Chain' (fun a b => ¬ (isCall a = true ∧ isCall b = true)) t

/-- Adjacency relation for the amended pause discipline: every page fetch
is immediately preceded by a pause. -/
def sleepBeforeFetch (a b : Ev) : Prop :=
  isGetEntries b = true → a = Ev.sleep

/-- Relation between two successive fetches of the trace: the earlier
page was non-empty, every entry in it was accepted, and the later cursor
is the id of its last (hence last accepted) entry. -/
def cursorStep (date : Int) (a b : Option Nat × List Entry) : Prop :=
  a.2 ≠ [] ∧ (∀ e ∈ a.2, isAfter date e = true) ∧ b.1 = a.2.getLast?.map Entry.id

/-- Outcome of reading an HTTP response body (lines 27-30): either the
full body, or the partial body salvaged from a caught `IncompleteRead`.
Bodies are kept as already-decoded strings. -/
inductive BodyRead
  | complete (body : String)
  | incomplete (body : String)
deriving DecidableEq, Repr

/-- The string `http_request` ends up returning for a body read. -/
def bodyOf : BodyRead → String
  | BodyRead.complete b => b
  | BodyRead.incomplete b => b

/-- `http_request` (lines 13-33) restricted to the response handling: it
returns the status together with the body, and an `IncompleteRead` while
reading is caught, the partial body standing in for the full one.  The
total return type reflects that neither outcome raises. -/
def http_request (status : Nat) (r : BodyRead) : Nat × String :=
  (status, bodyOf r)

/-- `MinifluxClient.request` (lines 54-64): any status above 299 raises
an error carrying the status and body; otherwise the body is returned
(JSON decoding of it is external and not modelled; the flag records which
operations request it). -/
def MinifluxClient.request (_jsonResponse : Bool) (status : Nat) (r : BodyRead) :
    Except (Nat × String) String :=
  let res := http_request status r
  if res.1 > 299 then Except.error (res.1, res.2) else Except.ok res.2

/-- `get_current_user` (line 66-67) delegates to `request` with a JSON
response. -/
def get_current_user (status : Nat) (r : BodyRead) : Except (Nat × String) String :=
  MinifluxClient.request true status r

/-- `mark_user_entries_as_read` (lines 69-70) delegates to `request` with
a raw response. -/
def mark_user_entries_as_read (status : Nat) (r : BodyRead) : Except (Nat × String) String :=
  MinifluxClient.request false status r

/-- `get_entries_by_status` (lines 72-81), response handling part. -/
def get_entries_by_status (status : Nat) (r : BodyRead) : Except (Nat × String) String :=
  MinifluxClient.request true status r

/-- `update_entries` (lines 83-87) delegates to `request` with a raw
response. -/
def update_entries (status : Nat) (r : BodyRead) : Except (Nat × String) String :=
  MinifluxClient.request false status r

/-- The query parameters built by `get_entries_by_status` (lines 72-81).
The cursor is added only when `after_entry_id` is truthy in Python's
sense: not `None` and not `0`. -/
def get_entries_by_status_params (status : String) (after_entry_id : Option Nat) :
    List (String × String) :=
  let base := [("order", "published_at"), ("direction", "desc"),
    ("status", status), ("limit", "100")]
  match after_entry_id with
  | none => base
  | some cid => if cid != 0 then base ++ [("after_entry_id", toString cid)] else base

/-- The fields of a Python `datetime` as produced by `strptime` for the
two formats of `parse_time` (both set every field, so the struct is
always fully determined; the timezone offset is kept in minutes). -/
structure PyDatetime where
  year : Nat
  month : Nat
  day : Nat
  hour : Nat
  minute : Nat
  second : Nat
  microsecond : Nat
  tzOffsetMinutes : Int
deriving DecidableEq, Repr

/-- The default field values `strptime` starts from (Python uses
1900-01-01 00:00:00). -/
def PyDatetime.default1900 : PyDatetime :=
  ⟨1900, 1, 1, 0, 0, 0, 0, 0⟩

/-- Read greedily up to `maxWidth` leading decimal digits, returning the
value, the number of digits consumed and the rest of the input. -/
def readDigitsAux : Nat → Nat → Nat → List Char → Nat × Nat × List Char
  | 0, acc, cnt, cs => (acc, cnt, cs)
  | n + 1, acc, cnt, cs =>
    match cs with
    | [] => (acc, cnt, [])
    | c :: rest =>
      if c.isDigit then readDigitsAux n (acc * 10 + (c.toNat - 48)) (cnt + 1) rest
      else (acc, cnt, cs)

/-- Greedy bounded digit reader starting from zero. -/
def readDigits (maxWidth : Nat) (cs : List Char) : Nat × Nat × List Char :=
  readDigitsAux maxWidth 0 0 cs

/-- One `datetime.strptime` run, interpreting the format character list
against the input character list.  Only the directives used by
`parse_time` are interpreted (`%Y` exactly four digits; `%m %d %H %M %S`
one or two digits with the usual range checks; `%f` one to six digits
scaled to microseconds; `%z` either `Z` or a sign followed by two hour
digits, an optional colon and two minute digits).  Any other character of
the format must match the input literally, and leftover input is an
error, as in Python. -/
def strptimeRun : List Char → List Char → PyDatetime → Option PyDatetime
  | [], [], acc => some acc
  | [], _ :: _, _ => none
  | '%' :: 'Y' :: fmt, cs, acc =>
    let r := readDigits 4 cs
    if r.2.1 = 4 then strptimeRun fmt r.2.2 { acc with year := r.1 } else none
  | '%' :: 'm' :: fmt, cs, acc =>
    let r := readDigits 2 cs
    if 1 ≤ r.2.1 ∧ 1 ≤ r.1 ∧ r.1 ≤ 12 then
      strptimeRun fmt r.2.2 { acc with month := r.1 }
    else none
  | '%' :: 'd' :: fmt, cs, acc =>
    let r := readDigits 2 cs
    if 1 ≤ r.2.1 ∧ 1 ≤ r.1 ∧ r.1 ≤ 31 then
      strptimeRun fmt r.2.2 { acc with day := r.1 }
    else none
  | '%' :: 'H' :: fmt, cs, acc =>
    let r := readDigits 2 cs
    if 1 ≤ r.2.1 ∧ r.1 ≤ 23 then
      strptimeRun fmt r.2.2 { acc with hour := r.1 }
    else none
  | '%' :: 'M' :: fmt, cs, acc =>
    let r := readDigits 2 cs
    if 1 ≤ r.2.1 ∧ r.1 ≤ 59 then
      strptimeRun fmt r.2.2 { acc with minute := r.1 }
    else none
  | '%' :: 'S' :: fmt, cs, acc =>
    let r := readDigits 2 cs
    if 1 ≤ r.2.1 ∧ r.1 ≤ 61 then
      strptimeRun fmt r.2.2 { acc with second := r.1 }
    else none
  | '%' :: 'f' :: fmt, cs, acc =>
    let r := readDigits 6 cs
    if 1 ≤ r.2.1 then
      strptimeRun fmt r.2.2 { acc with microsecond := r.1 * 10 ^ (6 - r.2.1) }
    else none
  | '%' :: 'z' :: fmt, cs, acc =>
    match cs with
    | 'Z' :: rest => strptimeRun fmt rest { acc with tzOffsetMinutes := 0 }
    | c :: rest =>
      if c = '+' ∨ c = '-' then
        let rh := readDigits 2 rest
        if rh.2.1 = 2 then
          let t2 := if rh.2.2.head? = some ':' then rh.2.2.drop 1 else rh.2.2
          let rm := readDigits 2 t2
          if rm.2.1 = 2 ∧ rm.1 ≤ 59 then
            let mins : Int := (rh.1 * 60 + rm.1 : Nat)
            strptimeRun fmt rm.2.2
              { acc with tzOffsetMinutes := if c = '-' then -mins else mins }
          else none
        else none
      else none
    | [] => none
  | c :: fmt, d :: cs, acc => if c = d then strptimeRun fmt cs acc else none
  | _ :: _, [], _ => none

/-- `datetime.strptime(s, format)`. -/
def strptime (s : String) (format : String) : Option PyDatetime :=
  strptimeRun format.toList s.toList PyDatetime.default1900

/-- `parse_time` (lines 137-141): the format defaults to the one without
fractional seconds and is switched to the fractional one exactly when the
string contains a dot (the Python membership test `'.' in s` on the
character list of the string). -/
def parse_time (s : String) : Option PyDatetime :=
  let format := if s.toList.contains '.' then "%Y-%m-%dT%H:%M:%S.%f%z" else "%Y-%m-%dT%H:%M:%S%z"
  strptime s format

/-- Days since 1970-01-01 of a civil date (standard civil-from-days
inverse, valid for the years at hand). -/
def daysFromCivil (y m d : Nat) : Int :=
  let y2 := if m ≤ 2 then y - 1 else y
  let era := y2 / 400
  let yoe := y2 - era * 400
  let mp := if 2 < m then m - 3 else m + 9
  let doy := (153 * mp + 2) / 5 + d - 1
  let doe := yoe * 365 + yoe / 4 - yoe / 100 + doy
  ((era * 146097 + doe : Nat) : Int) - 719468

/-- The instant a parsed aware `datetime` denotes, in microseconds since
the epoch.  Python compares aware `datetime` values by this instant. -/
def PyDatetime.toInstantMicros (dt : PyDatetime) : Int :=
  (((daysFromCivil dt.year dt.month dt.day * 24 + dt.hour) * 60 + dt.minute
    - dt.tzOffsetMinutes) * 60 + dt.second) * 1000000 + dt.microsecond

/-- The instant denoted by a timestamp string, defaulting to 0 when the
string does not parse (used only on strings that do parse). -/
def instantOf (s : String) : Int :=
  ((parse_time s).map PyDatetime.toInstantMicros).getD 0

/-- The cutoff of the spec's worked example: 2024-01-10T00:00:00+08:00. -/
def cutoffExample : Int :=
  instantOf "2024-01-10T00:00:00+08:00"

/-- Example entry published two days after the example cutoff. -/
def entry0112 : Entry :=
  ⟨1, instantOf "2024-01-12T00:00:00+08:00", "newer"⟩

/-- Example entry published exactly at the example cutoff. -/
def entry0110 : Entry :=
  ⟨2, instantOf "2024-01-10T00:00:00+08:00", "exact"⟩

/-- Example entry published one day before the example cutoff. -/
def entry0109 : Entry :=
  ⟨3, instantOf "2024-01-09T00:00:00+08:00", "older"⟩

/-! ## Helper lemmas about the page scan and the pagination -/

theorem scanPageAux_all (date : Int) :
    ∀ (page : List Entry) (acc : List Nat) (ade : Option Entry),
      (∀ e ∈ page, isAfter date e = true) →
      scanPageAux date acc ade page = (acc ++ page.map Entry.id, page.getLast?.elim ade some) := by
  intro page
  induction page with
  | nil => intro acc ade _; simp [scanPageAux]
  | cons e rest ih =>
    intro acc ade h
    have he : isAfter date e = true := h e (List.mem_cons_self e rest)
    rw [scanPageAux, if_pos he, ih _ _ (fun x hx => h x (List.mem_cons_of_mem _ hx))]
    cases rest with
    | nil => simp
    | cons f rs =>
      cases hg : (f :: rs).getLast? with
      | none => simp [List.getLast?_eq_none_iff] at hg
      | some y => simp [List.getLast?_cons_cons, hg]

theorem scanPageAux_reject (date : Int) :
    ∀ (pre : List Entry) (e : Entry) (suf : List Entry) (acc : List Nat) (ade : Option Entry),
      (∀ x ∈ pre, isAfter date x = true) → isAfter date e = false →
      scanPageAux date acc ade (pre ++ e :: suf) = (acc ++ pre.map Entry.id, none) := by
  intro pre
  induction pre with
  | nil => intro e suf acc ade _ he; simp [scanPageAux, he]
  | cons x xs ih =>
    intro e suf acc ade hpre he
    have hx : isAfter date x = true := hpre x (List.mem_cons_self x xs)
    rw [List.cons_append, scanPageAux, if_pos hx,
      ih e suf _ _ (fun y hy => hpre y (List.mem_cons_of_mem _ hy)) he]
    simp

theorem exists_reject_decomp (date : Int) :
    ∀ (page : List Entry), (¬ ∀ e ∈ page, isAfter date e = true) →
      ∃ pre e suf, page = pre ++ e :: suf ∧
        (∀ x ∈ pre, isAfter date x = true) ∧ isAfter date e = false := by
  intro page
  induction page with
  | nil => intro h; exact absurd (by simp) h
  | cons e rest ih =>
    intro h
    by_cases he : isAfter date e = true
    · have hr : ¬ ∀ x ∈ rest, isAfter date x = true := by
        intro hall
        exact h (by
          intro x hx
          rcases List.mem_cons.mp hx with rfl | hx'
          · exact he
          · exact hall x hx')
      obtain ⟨pre, f, suf, hdec, hpre, hf⟩ := ih hr
      exact ⟨e :: pre, f, suf, by rw [hdec, List.cons_append], by
        intro x hx
        rcases List.mem_cons.mp hx with rfl | hx'
        · exact he
        · exact hpre x hx', hf⟩
    · exact ⟨[], e, rest, by simp, by simp, Bool.eq_false_iff.mpr he⟩

theorem scanPageAux_some (date : Int) :
    ∀ (page : List Entry) (acc ids2 : List Nat) (ade : Option Entry) (e : Entry),
      scanPageAux date acc ade page = (ids2, some e) →
      (∀ x ∈ page, isAfter date x = true) ∧ page.getLast?.elim ade some = some e ∧
        ids2 = acc ++ page.map Entry.id := by
  intro page acc ids2 ade e h
  by_cases hall : ∀ x ∈ page, isAfter date x = true
  · rw [scanPageAux_all date page acc ade hall] at h
    have h1 : acc ++ page.map Entry.id = ids2 := congrArg Prod.fst h
    have h2 : page.getLast?.elim ade some = some e := congrArg Prod.snd h
    exact ⟨hall, h2, h1.symm⟩
  · obtain ⟨pre, f, suf, hdec, hpre, hf⟩ := exists_reject_decomp date page hall
    rw [hdec, scanPageAux_reject date pre f suf acc ade hpre hf] at h
    have h2 : (none : Option Entry) = some e := congrArg Prod.snd h
    exact absurd h2 (by simp)

theorem appendTrace_succ (fetch : Option Nat → List Entry) (date : Int) (fuel : Nat)
    (acc : List Nat) (c : Option Nat) :
    appendTrace fetch date (fuel + 1) acc c =
      match scanPageAux date acc none (fetch c) with
      | (ids2, none) => some ([(c, fetch c)], ids2)
      | (ids2, some e) =>
        match appendTrace fetch date fuel ids2 (some e.id) with
        | none => none
        | some (ps, ids3) => some ((c, fetch c) :: ps, ids3) := rfl

theorem appendTrace_head (fetch : Option Nat → List Entry) (date : Int)
    (fuel : Nat) (acc : List Nat) (c : Option Nat)
    (ps : List (Option Nat × List Entry)) (ids : List Nat)
    (h : appendTrace fetch date fuel acc c = some (ps, ids)) :
    ∃ rest, ps = (c, fetch c) :: rest := by
  cases fuel with
  | zero => simp [appendTrace] at h
  | succ n =>
    rw [appendTrace_succ] at h
    rcases hscan : scanPageAux date acc none (fetch c) with ⟨ids2, ade⟩
    rw [hscan] at h
    cases ade with
    | none =>
      dsimp only at h
      have hps : [(c, fetch c)] = ps := congrArg Prod.fst (Option.some.inj h)
      exact ⟨[], hps.symm⟩
    | some e =>
      dsimp only at h
      rcases hrec : appendTrace fetch date n ids2 (some e.id) with _ | ⟨ps', ids'⟩
      · rw [hrec] at h; simp at h
      · rw [hrec] at h
        dsimp only at h
        have hps : (c, fetch c) :: ps' = ps := congrArg Prod.fst (Option.some.inj h)
        exact ⟨ps', hps.symm⟩

theorem takeWhile_extend {α : Type} (p : α → Bool) :
    ∀ (l : List α) (n : Nat), (∀ x ∈ l.take n, p x = true) →
      l.takeWhile p = l.take n ++ (l.drop n).takeWhile p := by
  intro l
  induction l with
  | nil => intro n _; simp
  | cons e rest ih =>
    intro n h
    cases n with
    | zero => simp
    | succ m =>
      have he : p e = true := h e (by simp)
      rw [List.take_succ_cons, List.drop_succ_cons, List.takeWhile_cons, if_pos he,
        ih m (fun x hx => h x (by simp [hx]))]
      simp

theorem takeWhile_reject {α : Type} (p : α → Bool) :
    ∀ (pre : List α) (e : α) (suf : List α), (∀ x ∈ pre, p x = true) → p e = false →
      (pre ++ e :: suf).takeWhile p = pre := by
  intro pre
  induction pre with
  | nil => intro e suf _ he; simp [List.takeWhile_cons, he]
  | cons x xs ih =>
    intro e suf h he
    rw [List.cons_append, List.takeWhile_cons, if_pos (h x (by simp)),
      ih e suf (fun y hy => h y (by simp [hy])) he]

theorem le_length_takeWhile {α : Type} (p : α → Bool) (l : List α) (n : Nat)
    (h : ∀ x ∈ l.take n, p x = true) (hn : n ≤ l.length) :
    n ≤ (l.takeWhile p).length := by
  rw [takeWhile_extend p l n h]
  simp [Nat.min_eq_left hn]

theorem mem_take_of_le_length_takeWhile {α : Type} (p : α → Bool) (l : List α) (j : Nat)
    (hj : j ≤ (l.takeWhile p).length) : ∀ x ∈ l.take j, p x = true := by
  obtain ⟨t, ht⟩ := List.takeWhile_prefix (l := l) p
  intro x hx
  have hx' : x ∈ (l.takeWhile p).take j := by
    rw [← ht, List.take_append_eq_append_take, Nat.sub_eq_zero_of_le hj] at hx
    simpa using hx
  exact List.mem_takeWhile_imp (List.take_subset j _ hx')

theorem dropWhile_id_ne_of_nodup :
    ∀ (entries : List Entry) (k : Nat) (e : Entry),
      (entries.map Entry.id).Nodup → entries[k]? = some e →
      (entries.dropWhile fun x => x.id != e.id) = entries.drop k := by
  intro entries
  induction entries with
  | nil => intro k e _ hk; simp at hk
  | cons a rest ih =>
    intro k e hnd hk
    rw [List.map_cons, List.nodup_cons] at hnd
    cases k with
    | zero =>
      have ha : a = e := by simpa using hk
      subst ha
      rw [List.dropWhile_cons]
      simp
    | succ m =>
      have hk' : rest[m]? = some e := by simpa using hk
      have hmem : e ∈ rest := List.mem_iff_getElem?.mpr ⟨m, hk'⟩
      have hne : a.id ≠ e.id := by
        intro hEq
        exact hnd.1 (hEq ▸ List.mem_map_of_mem Entry.id hmem)
      rw [List.dropWhile_cons, if_pos (by simp [hne]), List.drop_succ_cons]
      exact ih m e hnd.2 hk'

theorem chain'_head_gt :
    ∀ (rest : List Entry) (e : Entry),
      List.Chain' (fun a b => b.publishedAt < a.publishedAt) (e :: rest) →
      ∀ x ∈ rest, x.publishedAt < e.publishedAt := by
  intro rest
  induction rest with
  | nil => intro e _ x hx; simp at hx
  | cons f rs ih =>
    intro e h x hx
    have hef : f.publishedAt < e.publishedAt := (List.chain'_cons.mp h).1
    rcases List.mem_cons.mp hx with rfl | hx'
    · exact hef
    · exact lt_trans (ih f (List.chain'_cons.mp h).2 x hx') hef

theorem filter_eq_takeWhile_of_sorted (date : Int) :
    ∀ (l : List Entry), List.Chain' (fun a b => b.publishedAt < a.publishedAt) l →
      l.filter (isAfter date) = l.takeWhile (isAfter date) := by
  intro l
  induction l with
  | nil => intro _; simp
  | cons e rest ih =>
    intro h
    have hrest : List.Chain' (fun a b => b.publishedAt < a.publishedAt) rest :=
      (List.chain'_cons'.mp h).2
    by_cases he : isAfter date e = true
    · rw [List.filter_cons_of_pos he, List.takeWhile_cons, if_pos he, ih hrest]
    · have he' : isAfter date e = false := Bool.eq_false_iff.mpr he
      have hle : e.publishedAt ≤ date := by
        have := Bool.of_decide_false he'
        omega
      have hnone : ∀ x ∈ rest, isAfter date x = false := by
        intro x hx
        have hlt : x.publishedAt < e.publishedAt := chain'_head_gt rest e h x hx
        simp only [isAfter, decide_eq_false_iff_not]
        omega
      rw [List.filter_cons_of_neg (by simp [he']), List.takeWhile_cons, if_neg (by simp [he'])]
      exact List.filter_eq_nil_iff.mpr (fun a ha => by simp [hnone a ha])

theorem appendTrace_collects (entries : List Entry) (date : Int)
    (hnd : (entries.map Entry.id).Nodup) :
    ∀ (fuel j : Nat) (c : Option Nat)
      (ps : List (Option Nat × List Entry)) (ids : List Nat),
      j ≤ (entries.takeWhile (isAfter date)).length →
      pageAfter entries 100 c = (entries.drop j).take 100 →
      appendTrace (pageAfter entries 100) date fuel ((entries.take j).map Entry.id) c =
        some (ps, ids) →
      ids = (entries.takeWhile (isAfter date)).map Entry.id := by
  intro fuel
  induction fuel with
  | zero => intro j c ps ids _ _ h; simp [appendTrace] at h
  | succ n ih =>
    intro j c ps ids hjle hpage h
    have hjlen : j ≤ entries.length :=
      le_trans hjle (List.IsPrefix.length_le (List.takeWhile_prefix _))
    have hallj : ∀ x ∈ entries.take j, isAfter date x = true :=
      mem_take_of_le_length_takeWhile _ entries j hjle
    rw [appendTrace_succ, hpage] at h
    have hplen : ((entries.drop j).take 100).length = min 100 (entries.length - j) := by
      rw [List.length_take, List.length_drop]
    by_cases hempty : (entries.drop j).take 100 = []
    · rw [hempty] at h
      dsimp only [scanPageAux] at h
      have hids : (entries.take j).map Entry.id = ids := congrArg Prod.snd (Option.some.inj h)
      have hdrop : entries.length ≤ j := by
        rcases List.take_eq_nil_iff.mp hempty with h1 | h2
        · omega
        · exact List.drop_eq_nil_iff.mp h2
      have hjA : (entries.takeWhile (isAfter date)).length = entries.length :=
        le_antisymm (List.IsPrefix.length_le (List.takeWhile_prefix _)) (by omega)
      have hA : entries.takeWhile (isAfter date) = entries :=
        List.IsPrefix.eq_of_length (List.takeWhile_prefix _) hjA
      rw [hA, ← hids, List.take_of_length_le hdrop]
    · by_cases hall : ∀ x ∈ (entries.drop j).take 100, isAfter date x = true
      · rcases hlast : ((entries.drop j).take 100).getLast? with _ | last
        · exact absurd (List.getLast?_eq_none_iff.mp hlast) hempty
        · rw [scanPageAux_all date ((entries.drop j).take 100)
            ((entries.take j).map Entry.id) none hall, hlast] at h
          dsimp only [Option.elim] at h
          rcases hrec : appendTrace (pageAfter entries 100) date n
              ((entries.take j).map Entry.id ++ ((entries.drop j).take 100).map Entry.id)
              (some last.id) with _ | ⟨ps', ids'⟩
          · rw [hrec] at h; simp at h
          · rw [hrec] at h
            dsimp only at h
            have hids : ids' = ids := congrArg Prod.snd (Option.some.inj h)
            have hpgeone : 1 ≤ ((entries.drop j).take 100).length := by
              have := List.length_pos.mpr hempty
              omega
            have htake_page : (entries.drop j).take ((entries.drop j).take 100).length =
                (entries.drop j).take 100 := by
              rw [List.take_eq_take, List.length_drop]
              omega
            have hmem_all : ∀ x ∈ entries.take (j + ((entries.drop j).take 100).length),
                isAfter date x = true := by
              intro x hx
              rw [List.take_add] at hx
              rcases List.mem_append.mp hx with h1 | h2
              · exact hallj x h1
              · rw [htake_page] at h2; exact hall x h2
            have hjle' : j + ((entries.drop j).take 100).length ≤
                (entries.takeWhile (isAfter date)).length :=
              le_length_takeWhile _ entries _ hmem_all (by omega)
            have hlastidx : entries[j + ((entries.drop j).take 100).length - 1]? = some last := by
              have h1 : ((entries.drop j).take 100)[((entries.drop j).take 100).length - 1]? =
                  some last := by
                rw [← List.getLast?_eq_getElem?]; exact hlast
              have h2 : ((entries.drop j).take 100)[((entries.drop j).take 100).length - 1]? =
                  (entries.drop j)[((entries.drop j).take 100).length - 1]? := by
                rw [List.getElem?_take, if_pos (by omega)]
              rw [h2, List.getElem?_drop] at h1
              rw [← h1]
              congr 1
              omega
            have hcursor : pageAfter entries 100 (some last.id) =
                (entries.drop (j + ((entries.drop j).take 100).length)).take 100 := by
              show (((entries.dropWhile fun x => x.id != last.id).drop 1).take 100) = _
              rw [dropWhile_id_ne_of_nodup entries
                (j + ((entries.drop j).take 100).length - 1) last hnd hlastidx,
                List.drop_drop]
              congr 2
              omega
            have hacc : (entries.take j).map Entry.id ++
                ((entries.drop j).take 100).map Entry.id =
                (entries.take (j + ((entries.drop j).take 100).length)).map Entry.id := by
              rw [List.take_add, List.map_append, htake_page]
            rw [← hids]
            exact ih (j + ((entries.drop j).take 100).length) (some last.id) ps' ids'
              hjle' hcursor (by rw [← hacc]; exact hrec)
      · obtain ⟨pre, f, suf, hdec, hpre, hf⟩ :=
          exists_reject_decomp date ((entries.drop j).take 100) hall
        rw [hdec, scanPageAux_reject date pre f suf ((entries.take j).map Entry.id) none
          hpre hf] at h
        dsimp only at h
        have hids : (entries.take j).map Entry.id ++ pre.map Entry.id = ids :=
          congrArg Prod.snd (Option.some.inj h)
        have hdropj : entries.drop j = pre ++ f :: (suf ++ (entries.drop j).drop 100) := by
          conv_lhs => rw [← List.take_append_drop 100 (entries.drop j)]
          rw [hdec, List.append_assoc, List.cons_append]
        have hA : entries.takeWhile (isAfter date) = entries.take j ++ pre := by
          rw [takeWhile_extend (isAfter date) entries j hallj, hdropj,
            takeWhile_reject (isAfter date) pre f _ hpre hf]
        rw [hA, List.map_append, ← hids]

theorem appendTrace_chain (fetch : Option Nat → List Entry) (date : Int) :
    ∀ (fuel : Nat) (acc : List Nat) (c : Option Nat)
      (ps : List (Option Nat × List Entry)) (ids : List Nat),
      appendTrace fetch date fuel acc c = some (ps, ids) →
      List.Chain' (cursorStep date) ps := by
  intro fuel
  induction fuel with
  | zero => intro acc c ps ids h; simp [appendTrace] at h
  | succ n ih =>
    intro acc c ps ids h
    rw [appendTrace_succ] at h
    rcases hscan : scanPageAux date acc none (fetch c) with ⟨ids2, ade⟩
    rw [hscan] at h
    cases ade with
    | none =>
      dsimp only at h
      have hps : [(c, fetch c)] = ps := congrArg Prod.fst (Option.some.inj h)
      rw [← hps]
      exact List.chain'_singleton _
    | some e =>
      dsimp only at h
      rcases hrec : appendTrace fetch date n ids2 (some e.id) with _ | ⟨ps', ids'⟩
      · rw [hrec] at h; simp at h
      · rw [hrec] at h
        dsimp only at h
        have hps : (c, fetch c) :: ps' = ps := congrArg Prod.fst (Option.some.inj h)
        rw [← hps]
        obtain ⟨hallp, hlast, _⟩ := scanPageAux_some date (fetch c) acc ids2 none e hscan
        have hne : fetch c ≠ [] := by
          intro hnil
          rw [hnil] at hlast
          simp [Option.elim] at hlast
        have hstep : ∀ b ∈ ps'.head?, cursorStep date (c, fetch c) b := by
          intro b hb
          obtain ⟨rest, hrest⟩ := appendTrace_head fetch date n ids2 (some e.id) ps' ids' hrec
          rw [hrest] at hb
          simp at hb
          refine ⟨hne, hallp, ?_⟩
          rw [← hb]
          dsimp only
          cases hgl : (fetch c).getLast? with
          | none => exact absurd (List.getLast?_eq_none_iff.mp hgl) hne
          | some g =>
            rw [hgl] at hlast
            simp [Option.elim] at hlast
            simp [hlast]
        exact List.chain'_cons'.mpr ⟨hstep, ih ids2 (some e.id) ps' ids' hrec⟩

theorem chain_fetchEvents (ps : List (Option Nat × List Entry)) :
    ∀ (rest : List Ev), List.Chain' sleepBeforeFetch rest →
      (∀ b ∈ rest.head?, isGetEntries b = false) →
      List.Chain' sleepBeforeFetch (fetchEvents ps ++ rest) := by
  induction ps with
  | nil => intro rest h _; simpa [fetchEvents] using h
  | cons p ps' ih =>
    intro rest h hhead
    have hshape : fetchEvents (p :: ps') ++ rest =
        Ev.sleep :: Ev.getEntries p.1 :: (fetchEvents ps' ++ rest) := by
      simp [fetchEvents]
    rw [hshape]
    refine List.chain'_cons'.mpr ⟨?_, List.chain'_cons'.mpr ⟨?_, ih rest h hhead⟩⟩
    · intro b _ _
      rfl
    · intro b hb hbGet
      exfalso
      cases ps' with
      | nil =>
        simp [fetchEvents] at hb
        have := hhead b (Option.mem_def.mpr hb)
        rw [this] at hbGet
        exact Bool.false_ne_true hbGet
      | cons q qs =>
        simp [fetchEvents] at hb
        rw [← hb] at hbGet
        simp [isGetEntries] at hbGet

theorem scanPageAux_mem (date : Int) :
    ∀ (page : List Entry) (acc : List Nat) (ade : Option Entry) (i : Nat),
      i ∈ (scanPageAux date acc ade page).1 →
      i ∈ acc ∨ ∃ e ∈ page, e.id = i ∧ isAfter date e = true := by
  intro page
  induction page with
  | nil => intro acc ade i h; exact Or.inl h
  | cons e rest ih =>
    intro acc ade i h
    rw [scanPageAux] at h
    by_cases he : isAfter date e = true
    · rw [if_pos he] at h
      rcases ih _ _ i h with hacc | ⟨f, hf, hfi, hfa⟩
      · rcases List.mem_append.mp hacc with h1 | h2
        · exact Or.inl h1
        · exact Or.inr ⟨e, List.mem_cons_self e rest, (List.mem_singleton.mp h2).symm, he⟩
      · exact Or.inr ⟨f, List.mem_cons_of_mem _ hf, hfi, hfa⟩
    · rw [if_neg he] at h
      exact Or.inl h

/-! ## Claim theorems -/

/-- C1: for every run of the pagination over a server holding entries in
strictly descending publish order (with distinct ids) that completes, the
collected id list is exactly the ids of the entries published strictly
after the cutoff, and at the end of the run exactly those entries are
unread while every other entry is read. -/
theorem run_marks_exactly_recent_unread (entries : List Entry) (date : Int)
    (fuel : Nat) (entry_ids : List Nat)
    (hsorted : List.Chain' (fun a b => b.publishedAt < a.publishedAt) entries)
    (hnd : (entries.map Entry.id).Nodup)
    (hrun : append_entries_after_date (pageAfter entries 100) date fuel [] none =
      some entry_ids) :
    entry_ids = (entries.filter (isAfter date)).map Entry.id ∧
    ∀ e ∈ entries,
      (runFinalStatus entry_ids e = EntryStatus.unread ↔ date < e.publishedAt) := by
  rcases htr : appendTrace (pageAfter entries 100) date fuel [] none with _ | ⟨ps, ids⟩
  · rw [append_entries_after_date, htr] at hrun; simp at hrun
  · rw [append_entries_after_date, htr] at hrun
    simp only [Option.map_some'] at hrun
    have hids : ids = entry_ids := Option.some.inj hrun
    have hcoll : ids = (entries.takeWhile (isAfter date)).map Entry.id :=
      appendTrace_collects entries date hnd fuel 0 none ps ids
        (Nat.zero_le _) (by simp [pageAfter]) (by simpa using htr)
    have hfil : entry_ids = (entries.filter (isAfter date)).map Entry.id := by
      rw [← hids, hcoll, filter_eq_takeWhile_of_sorted date entries hsorted]
    refine ⟨hfil, ?_⟩
    intro e he
    have hmemiff : e.id ∈ entry_ids ↔ date < e.publishedAt := by
      rw [hfil]
      constructor
      · intro hmem
        obtain ⟨f, hf, hfe⟩ := List.mem_map.mp hmem
        have hf' := List.mem_filter.mp hf
        have hfeq : f = e := List.inj_on_of_nodup_map hnd hf'.1 he hfe
        have := hf'.2
        rw [hfeq] at this
        exact of_decide_eq_true this
      · intro hlt
        exact List.mem_map.mpr ⟨e,
          List.mem_filter.mpr ⟨he, decide_eq_true hlt⟩, rfl⟩
    rw [runFinalStatus]
    by_cases hmem : e.id ∈ entry_ids
    · rw [if_pos hmem]
      simp [hmemiff.mp hmem]
    · rw [if_neg hmem]
      constructor
      · intro hcon
        exact absurd hcon (by simp)
      · intro hlt
        exact absurd (hmemiff.mpr hlt) hmem

theorem run_marks_exactly_recent_unread_witness :
    [1, 2] = (([⟨1, 10, "a"⟩, ⟨2, 5, "b"⟩, ⟨3, 1, "c"⟩] : List Entry).filter
      (isAfter 3)).map Entry.id ∧
    ∀ e ∈ ([⟨1, 10, "a"⟩, ⟨2, 5, "b"⟩, ⟨3, 1, "c"⟩] : List Entry),
      (runFinalStatus [1, 2] e = EntryStatus.unread ↔ 3 < e.publishedAt) :=
  run_marks_exactly_recent_unread [⟨1, 10, "a"⟩, ⟨2, 5, "b"⟩, ⟨3, 1, "c"⟩] 3 5 [1, 2]
    (by simp [List.chain'_cons]) (by decide) (by decide)

/-- C2: every id the page scan records comes from an entry of the page
published strictly after the cutoff, so an entry whose timestamp equals
the cutoff exactly (and whose id no other entry of the page shares) is
never recorded; on the spec's worked example only the newer entry is
recorded, the exact-cutoff entry is excluded, and whatever entry follows
it is never examined. -/
theorem exact_cutoff_entry_excluded (date : Int) (page : List Entry) :
    (∀ i ∈ (scanPage date page).1, ∃ e ∈ page, e.id = i ∧ date < e.publishedAt) ∧
    (∀ e ∈ page, e.publishedAt = date → (∀ x ∈ page, x.id = e.id → x = e) →
      e.id ∉ (scanPage date page).1) ∧
    (∀ x : Entry, scanPage cutoffExample [entry0112, entry0110, x] =
      ([entry0112.id], none)) := by
  have hfst : ∀ i ∈ (scanPage date page).1,
      ∃ e ∈ page, e.id = i ∧ date < e.publishedAt := by
    intro i hi
    rcases scanPageAux_mem date page [] none i hi with hnil | ⟨e, he, hei, hea⟩
    · simp at hnil
    · exact ⟨e, he, hei, of_decide_eq_true hea⟩
  refine ⟨hfst, ?_, ?_⟩
  · intro e he heq huniq hmem
    obtain ⟨f, hf, hfi, hfa⟩ := hfst e.id hmem
    have : f = e := huniq f hf hfi
    rw [this, heq] at hfa
    exact lt_irrefl date hfa
  · intro x
    have h1 : isAfter cutoffExample entry0112 = true := by decide
    have h2 : isAfter cutoffExample entry0110 = false := by decide
    simp [scanPage, scanPageAux, h1, h2]

theorem exact_cutoff_entry_excluded_witness :
    entry0110.id ∉ (scanPage cutoffExample [entry0112, entry0110, entry0109]).1 :=
  (exact_cutoff_entry_excluded cutoffExample [entry0112, entry0110, entry0109]).2.1
    entry0110 (by decide) (by decide) (by decide)

/-- C3: when the page a fetch returns has an accepted prefix followed by
an entry not strictly after the cutoff, the run records exactly the ids
of that prefix (nothing at or after the rejected entry, whatever the rest
of the page holds) and performs no further fetch: the trace is that one
fetch. -/
theorem scan_stops_at_first_sub_cutoff (fetch : Option Nat → List Entry) (date : Int)
    (fuel : Nat) (acc : List Nat) (c : Option Nat) (pre suf : List Entry) (e : Entry)
    (hpage : fetch c = pre ++ e :: suf)
    (hpre : ∀ x ∈ pre, isAfter date x = true)
    (he : isAfter date e = false) :
    appendTrace fetch date (fuel + 1) acc c =
      some ([(c, pre ++ e :: suf)], acc ++ pre.map Entry.id) := by
  rw [appendTrace_succ, hpage, scanPageAux_reject date pre e suf acc none hpre he]

theorem scan_stops_at_first_sub_cutoff_witness :
    appendTrace (fun _ => [⟨1, 10, "a"⟩, ⟨2, 0, "b"⟩, ⟨3, 20, "c"⟩]) 5 3 [] none =
      some ([(none, [⟨1, 10, "a"⟩] ++ ⟨2, 0, "b"⟩ :: [⟨3, 20, "c"⟩])],
        [] ++ [(⟨1, 10, "a"⟩ : Entry)].map Entry.id) :=
  scan_stops_at_first_sub_cutoff (fun _ => [⟨1, 10, "a"⟩, ⟨2, 0, "b"⟩, ⟨3, 20, "c"⟩]) 5 2
    [] none [⟨1, 10, "a"⟩] [⟨3, 20, "c"⟩] ⟨2, 0, "b"⟩ rfl (by decide) (by decide)

/-- C4: along the fetch trace of any completed run, every fetched next
page follows a page that was non-empty and entirely accepted, and its
cursor is the id of that page's last (hence last accepted) entry — never
the id of a rejected entry. -/
theorem next_cursor_is_last_accepted (fetch : Option Nat → List Entry) (date : Int)
    (fuel : Nat) (ps : List (Option Nat × List Entry)) (ids : List Nat)
    (h : appendTrace fetch date fuel [] none = some (ps, ids)) :
    List.Chain' (cursorStep date) ps :=
  appendTrace_chain fetch date fuel [] none ps ids h

theorem next_cursor_is_last_accepted_witness :
    List.Chain' (cursorStep 5)
      [(none, [(⟨1, 10, "x"⟩ : Entry)]), (some 1, [])] :=
  next_cursor_is_last_accepted
    (fun c => match c with | none => [⟨1, 10, "x"⟩] | some _ => []) 5 2
    [(none, [⟨1, 10, "x"⟩]), (some 1, [])] [1] rfl

/-- C5: every client operation raises an error carrying the status code
and response body exactly when the response status is at least 300 (no
4xx/5xx distinction), and returns the body on any status below 300. -/
theorem status_ge_300_raises (status : Nat) (r : BodyRead) :
    (300 ≤ status →
      get_current_user status r = Except.error (status, bodyOf r) ∧
      mark_user_entries_as_read status r = Except.error (status, bodyOf r) ∧
      get_entries_by_status status r = Except.error (status, bodyOf r) ∧
      update_entries status r = Except.error (status, bodyOf r)) ∧
    (status < 300 →
      get_current_user status r = Except.ok (bodyOf r) ∧
      mark_user_entries_as_read status r = Except.ok (bodyOf r) ∧
      get_entries_by_status status r = Except.ok (bodyOf r) ∧
      update_entries status r = Except.ok (bodyOf r)) := by
  unfold get_current_user mark_user_entries_as_read get_entries_by_status update_entries
    MinifluxClient.request http_request
  constructor
  · intro h
    simp [show (299 < status) from by omega]
  · intro h
    simp [show ¬ (299 < status) from by omega]

theorem status_ge_300_raises_witness :
    (300 ≤ 404 → get_current_user 404 (BodyRead.complete "nope") =
      Except.error (404, bodyOf (BodyRead.complete "nope")) ∧
      mark_user_entries_as_read 404 (BodyRead.complete "nope") =
        Except.error (404, bodyOf (BodyRead.complete "nope")) ∧
      get_entries_by_status 404 (BodyRead.complete "nope") =
        Except.error (404, bodyOf (BodyRead.complete "nope")) ∧
      update_entries 404 (BodyRead.complete "nope") =
        Except.error (404, bodyOf (BodyRead.complete "nope"))) ∧
    (404 < 300 → get_current_user 404 (BodyRead.complete "nope") =
      Except.ok (bodyOf (BodyRead.complete "nope")) ∧
      mark_user_entries_as_read 404 (BodyRead.complete "nope") =
        Except.ok (bodyOf (BodyRead.complete "nope")) ∧
      get_entries_by_status 404 (BodyRead.complete "nope") =
        Except.ok (bodyOf (BodyRead.complete "nope")) ∧
      update_entries 404 (BodyRead.complete "nope") =
        Except.ok (bodyOf (BodyRead.complete "nope"))) :=
  status_ge_300_raises 404 (BodyRead.complete "nope")

/-- C6: when the first page of read entries is empty, the run fetches
exactly one page, records no id, and still performs the bulk unread
update exactly once, with the empty id list, completing successfully. -/
theorem empty_first_page (fetch : Option Nat → List Entry) (date : Int) (fuel : Nat)
    (h : fetch none = []) :
    appendTrace fetch date (fuel + 1) [] none = some ([(none, [])], []) ∧
    mainEvents fetch date (fuel + 1) =
      some [Ev.getCurrentUser, Ev.markAllRead, Ev.sleep, Ev.getEntries none,
        Ev.updateEntries []] := by
  have h1 : appendTrace fetch date (fuel + 1) [] none = some ([(none, [])], []) := by
    rw [appendTrace_succ, h]
    rfl
  refine ⟨h1, ?_⟩
  rw [mainEvents, h1]
  rfl

theorem empty_first_page_witness :
    appendTrace (fun _ => []) 0 1 [] none = some ([(none, [])], []) ∧
    mainEvents (fun _ => []) 0 1 =
      some [Ev.getCurrentUser, Ev.markAllRead, Ev.sleep, Ev.getEntries none,
        Ev.updateEntries []] :=
  empty_first_page (fun _ => []) 0 0 rfl

/-- C7: `parse_time` parses with the fractional-seconds format exactly
when the string contains a dot and with the plain format otherwise, and
the two renderings of the same instant — with and without a zero
fractional part — parse to the same datetime value. -/
theorem parse_time_both_formats :
    (∀ s : String, s.toList.contains '.' = true →
      parse_time s = strptime s "%Y-%m-%dT%H:%M:%S.%f%z") ∧
    (∀ s : String, s.toList.contains '.' = false →
      parse_time s = strptime s "%Y-%m-%dT%H:%M:%S%z") ∧
    parse_time "2024-01-10T00:00:00+08:00" = some ⟨2024, 1, 10, 0, 0, 0, 0, 480⟩ ∧
    parse_time "2024-01-10T00:00:00.000000+08:00" =
      some ⟨2024, 1, 10, 0, 0, 0, 0, 480⟩ := by
  refine ⟨?_, ?_, rfl, rfl⟩
  · intro s h
    simp only [parse_time]
    rw [h]
    rfl
  · intro s h
    simp only [parse_time]
    rw [h]
    rfl

theorem parse_time_both_formats_witness :
    parse_time "2024-01-10T00:00:00.000000+08:00" =
      strptime "2024-01-10T00:00:00.000000+08:00" "%Y-%m-%dT%H:%M:%S.%f%z" ∧
    parse_time "2024-01-10T00:00:00+08:00" =
      strptime "2024-01-10T00:00:00+08:00" "%Y-%m-%dT%H:%M:%S%z" :=
  ⟨parse_time_both_formats.1 "2024-01-10T00:00:00.000000+08:00" (by decide),
    parse_time_both_formats.2.1 "2024-01-10T00:00:00+08:00" (by decide)⟩

/-- C9: an incomplete read of the response body is not propagated:
`http_request` returns the partial body as if it were the whole response,
and on a success status the client call proceeds to return it. -/
theorem incomplete_read_returns_partial (status : Nat) (b : String) :
    http_request status (BodyRead.incomplete b) = (status, b) ∧
    (status ≤ 299 →
      MinifluxClient.request true status (BodyRead.incomplete b) = Except.ok b) := by
  refine ⟨rfl, ?_⟩
  intro h
  unfold MinifluxClient.request http_request
  simp only [if_neg (show ¬ 299 < status by omega)]
  rfl

theorem incomplete_read_returns_partial_witness :
    http_request 200 (BodyRead.incomplete "trunca") = (200, "trunca") ∧
    (200 ≤ 299 →
      MinifluxClient.request true 200 (BodyRead.incomplete "trunca") =
        Except.ok "trunca") :=
  incomplete_read_returns_partial 200 "trunca"

/-- C10: the `after_entry_id` query parameter is omitted whenever the
cursor is falsy in Python's sense: a cursor of 0 yields exactly the same
parameters as no cursor at all (so such a request restarts from the first
page), while any non-zero cursor is passed along. -/
theorem falsy_cursor_omitted (status : String) :
    get_entries_by_status_params status (some 0) =
      get_entries_by_status_params status none ∧
    (∀ s : String, ("after_entry_id", s) ∉ get_entries_by_status_params status (some 0)) ∧
    (∀ cid : Nat, cid ≠ 0 →
      ("after_entry_id", toString cid) ∈ get_entries_by_status_params status (some cid)) := by
  refine ⟨rfl, ?_, ?_⟩
  · intro s hmem
    simp only [get_entries_by_status_params] at hmem
    rw [if_neg (by decide)] at hmem
    simp at hmem
  · intro cid hcid
    simp only [get_entries_by_status_params]
    rw [if_pos (by simpa using hcid)]
    simp

theorem falsy_cursor_omitted_witness :
    get_entries_by_status_params "read" (some 0) =
      get_entries_by_status_params "read" none ∧
    ("after_entry_id", "7") ∉ get_entries_by_status_params "read" (some 0) ∧
    ("after_entry_id", toString 7) ∈ get_entries_by_status_params "read" (some 7) :=
  ⟨(falsy_cursor_omitted "read").1, (falsy_cursor_omitted "read").2.1 "7",
    (falsy_cursor_omitted "read").2.2 7 (by decide)⟩

/-- C8 counterexample: on a run whose first page is empty, the event list
contains the user lookup immediately followed by mark-all-read (two
remote calls with no pause between them), so it is false that a pause
separates every pair of successive remote calls. -/
theorem pause_missing_between_some_calls :
    mainEvents (fun _ => []) 0 1 =
      some [Ev.getCurrentUser, Ev.markAllRead, Ev.sleep, Ev.getEntries none,
        Ev.updateEntries []] ∧
    ¬ pausedBetweenCalls [Ev.getCurrentUser, Ev.markAllRead, Ev.sleep,
      Ev.getEntries none, Ev.updateEntries []] :=
  ⟨rfl, fun h => (List.chain'_cons.mp h).1 ⟨rfl, rfl⟩⟩

/-- C8 (amended): in the event list of every completed run a pause
immediately precedes every page fetch (the first one included); the run
opens with the user lookup directly followed by mark-all-read, and it
ends with the final update directly after the last page fetch, neither
pair separated by a pause. -/
theorem pause_before_each_fetch (fetch : Option Nat → List Entry) (date : Int)
    (fuel : Nat) (t : List Ev) (h : mainEvents fetch date fuel = some t) :
    List.Chain' sleepBeforeFetch t ∧
    t.take 2 = [Ev.getCurrentUser, Ev.markAllRead] ∧
    ∃ c ids, [Ev.getEntries c, Ev.updateEntries ids] <:+ t := by
  rcases htr : appendTrace fetch date fuel [] none with _ | ⟨ps, ids⟩
  · rw [mainEvents, htr] at h; simp at h
  · rw [mainEvents, htr] at h
    have ht : t = [Ev.getCurrentUser, Ev.markAllRead] ++ fetchEvents ps ++
        [Ev.updateEntries ids] := (Option.some.inj h).symm
    subst ht
    have hheadups : ∀ b ∈ (fetchEvents ps ++ [Ev.updateEntries ids]).head?,
        isGetEntries b = false := by
      intro b hb
      cases ps with
      | nil =>
        simp [fetchEvents] at hb
        subst hb
        rfl
      | cons q qs =>
        simp [fetchEvents] at hb
        subst hb
        rfl
    refine ⟨?_, by simp, ?_⟩
    · have hbase : List.Chain' sleepBeforeFetch (fetchEvents ps ++ [Ev.updateEntries ids]) :=
        chain_fetchEvents ps [Ev.updateEntries ids] (List.chain'_singleton _)
          (by intro b hb; simp at hb; subst hb; rfl)
      have hshape : [Ev.getCurrentUser, Ev.markAllRead] ++ fetchEvents ps ++
          [Ev.updateEntries ids] =
          Ev.getCurrentUser :: Ev.markAllRead :: (fetchEvents ps ++ [Ev.updateEntries ids]) := by
        simp
      rw [hshape]
      refine List.chain'_cons'.mpr ⟨?_, List.chain'_cons'.mpr ⟨?_, hbase⟩⟩
      · intro b hb hbad
        simp at hb
        subst hb
        simp [isGetEntries] at hbad
      · intro b hb hbad
        rw [hheadups b hb] at hbad
        exact (Bool.false_ne_true hbad).elim
    · obtain ⟨rest, hrest⟩ := appendTrace_head fetch date fuel [] none ps ids htr
      rcases List.eq_nil_or_concat ps with hnil | ⟨L, p, hconc⟩
      · rw [hnil] at hrest; simp at hrest
      · refine ⟨p.1, ids, ?_⟩
        have hshape2 : [Ev.getCurrentUser, Ev.markAllRead] ++ fetchEvents ps ++
            [Ev.updateEntries ids] =
            ([Ev.getCurrentUser, Ev.markAllRead] ++ fetchEvents L ++ [Ev.sleep]) ++
              [Ev.getEntries p.1, Ev.updateEntries ids] := by
          rw [hconc, List.concat_eq_append]
          simp [fetchEvents, List.flatMap_append]
        rw [hshape2]
        exact List.suffix_append _ _

theorem pause_before_each_fetch_witness :
    List.Chain' sleepBeforeFetch [Ev.getCurrentUser, Ev.markAllRead, Ev.sleep,
      Ev.getEntries none, Ev.updateEntries []] ∧
    ([Ev.getCurrentUser, Ev.markAllRead, Ev.sleep, Ev.getEntries none,
      Ev.updateEntries []] : List Ev).take 2 = [Ev.getCurrentUser, Ev.markAllRead] ∧
    ∃ c ids, [Ev.getEntries c, Ev.updateEntries ids] <:+
      [Ev.getCurrentUser, Ev.markAllRead, Ev.sleep, Ev.getEntries none,
        Ev.updateEntries []] :=
  pause_before_each_fetch (fun _ => []) 0 1 _ rfl
